import Mathlib

/-!
Verification development for the runtime-parameterized pairing library
(arithmetic core: Montgomery prime fields, Fp2 tower, MNT6 pairing engine,
and the byte-level pairing entry point).

Shallow embedding conventions:
* A limb array of N 64-bit limbs is modelled as a natural number strictly
  below 2 ^ mont_power, with mont_power = 64 * N.  The limb engine
  (add_nocarry, sub_noborrow, mul2, div2, reduce, CIOS Montgomery
  multiplication) is not part of the provided sources (only its trait
  declaration is), so it is modelled from the spec: wrapping add/sub at the
  representation width, one conditional subtraction of the modulus for
  reduce, and full-width Montgomery reduction with a final conditional
  subtraction for mont_mul.
* Fp operations (add_assign, double, sub_assign, negate, mul_assign,
  square, eea_inverse) follow fp.rs line by line.
* Fp2 mul_assign / square follow extension_towers/fp2.rs line by line.
* The MNT6 engine (pairings/mnt6/mod.rs) is embedded generically over
  records of Fp3 and Fp6 operations, mirroring the generic Rust code; the
  Fp3/Fp6 implementations themselves (fp3.rs, fp6_as_2_over_3.rs) are not
  in the provided sources and are modelled from the spec where a concrete
  instance is needed.
* Rust Result values are Except Unit, Rust Option values are Option, and
  an out-of-bounds slice index (a Rust panic) is modelled by an outer
  Option layer: none means the code would panic.
-/

/-! ## Bit iterators

The bit iterator types live in traits.rs, which is not among the provided
sources.  Modelled from the spec: an MSB-first iterator over the binary
digits of the encoded integer. -/

/-- Little-endian bit list of a natural number, computed with explicit fuel
so that the definition is structural (kernel-reducible).  Fuel n is always
sufficient for input n. -/
def nat_bits_le_fuel : Nat → Nat → List Bool
  | 0, _ => []
  | fuel + 1, n => if n = 0 then [] else (n % 2 == 1) :: nat_bits_le_fuel fuel (n / 2)

/-- Little-endian bit list of a natural number (no leading zeros). -/
def nat_bits_le (n : Nat) : List Bool :=
  nat_bits_le_fuel n n

/-- Modelled from the spec: MSB-first bit sequence of a loop parameter or
exponent, as produced by the MSB-first bit iterator in traits.rs (absent
from the provided sources). -/
def nat_bits_be (n : Nat) : List Bool :=
  (nat_bits_le n).reverse

/-- Numeric value of an MSB-first bit list. -/
def of_bits_be (l : List Bool) : Nat :=
  l.foldl (fun n b => 2 * n + (if b then 1 else 0)) 0

/-- Modelled from the spec: the ate loop in pairings/mnt6/mod.rs iterates
over MsbBitIterator::new(x).skip(1), i.e. all bits of x strictly below the
most significant one, from high to low. -/
def loop_bits (x : Nat) : List Bool :=
  (nat_bits_be x).tail

/-! ## Big-integer limb engine

Modelled from the spec (representation.rs only declares the trait; the
limb implementations are not among the provided sources): wrapping
add/sub/shift at width 2 ^ w, conditional subtraction for reduce, and
full-width Montgomery reduction for mont_mul. -/

/-- Wrapping addition of two limb arrays of total bit width w. -/
def add_nocarry (w a b : Nat) : Nat :=
  (a + b) % 2 ^ w

/-- Wrapping subtraction of two limb arrays of total bit width w. -/
def sub_noborrow (w a b : Nat) : Nat :=
  (a + (2 ^ w - b)) % 2 ^ w

/-- Left bit shift by one, overflow ignored. -/
def repr_mul2 (w a : Nat) : Nat :=
  (2 * a) % 2 ^ w

/-- Right bit shift by one. -/
def repr_div2 (a : Nat) : Nat :=
  a / 2

/-- Conditionally subtracts the modulus once, as reduce does in the limb
engine: used after additions whose result is below 2 * p. -/
def reduce_repr (p a : Nat) : Nat :=
  if p ≤ a then a - p else a

/-- Descriptor of a sized prime field, as carried by the SizedPrimeField
trait (field.rs is absent from the provided sources; fields follow the
spec: the modulus, the Montgomery bit width 64 * N, and minus the inverse
of the modulus modulo 2 ^ width). -/
structure SizedPrimeField where
  mont_power : Nat
  modulus : Nat
  mont_inv : Nat

/-- Montgomery radix R = 2 ^ (64 N) mod p. -/
def mont_r (F : SizedPrimeField) : Nat :=
  2 ^ F.mont_power % F.modulus

/-- R ^ 2 mod p, as stored in the field descriptor. -/
def mont_r2 (F : SizedPrimeField) : Nat :=
  2 ^ (2 * F.mont_power) % F.modulus

/-- Modelled from the spec: CIOS Montgomery multiplication reduced to its
full-width form, with the trailing conditional subtraction of p.  The
word-by-word CIOS loop of the limb engine computes exactly this value. -/
def mont_mul (F : SizedPrimeField) (a b : Nat) : Nat :=
  let w := 2 ^ F.mont_power
  let m := a * b * F.mont_inv % w
  reduce_repr F.modulus ((a * b + m * F.modulus) / w)

/-! ## Prime field Fp (fp.rs)

An Fp element is its Montgomery-form limb representation, a natural number
paired implicitly with its field descriptor.  The operations below follow
the FieldElement impl for Fp in fp.rs. -/

/-- Fp zero: the all-zero representation. -/
def Fp.zero_repr : Nat := 0

/-- Fp one: the Montgomery radix R mod p. -/
def Fp.one_repr (F : SizedPrimeField) : Nat :=
  mont_r F

/-- fp.rs add_assign: wrapping limb addition followed by reduce. -/
def Fp.add_assign (F : SizedPrimeField) (a b : Nat) : Nat :=
  reduce_repr F.modulus (add_nocarry F.mont_power a b)

/-- fp.rs double: limb mul2 followed by reduce. -/
def Fp.double (F : SizedPrimeField) (a : Nat) : Nat :=
  reduce_repr F.modulus (repr_mul2 F.mont_power a)

/-- fp.rs sub_assign: if the subtrahend is larger, first add the modulus,
then subtract without borrow. -/
def Fp.sub_assign (F : SizedPrimeField) (a b : Nat) : Nat :=
  sub_noborrow F.mont_power (if a < b then add_nocarry F.mont_power a F.modulus else a) b

/-- fp.rs negate: zero stays zero, otherwise the representation is replaced
by modulus - x via sub_noborrow. -/
def Fp.negate (F : SizedPrimeField) (a : Nat) : Nat :=
  if a = 0 then a else sub_noborrow F.mont_power F.modulus a

/-- fp.rs mul_assign: Montgomery multiplication of the representations. -/
def Fp.mul_assign (F : SizedPrimeField) (a b : Nat) : Nat :=
  mont_mul F a b

/-- fp.rs square: the specialized Montgomery squaring; its value equals
Montgomery multiplication by itself. -/
def Fp.square (F : SizedPrimeField) (a : Nat) : Nat :=
  mont_mul F a a

/-! ## Bounds and residues of the Fp operations -/

theorem reduce_repr_lt {p a : Nat} (_hp : 0 < p) (ha : a < 2 * p) :
    reduce_repr p a < p := by
  unfold reduce_repr
  split <;> omega

theorem reduce_repr_mod {p a : Nat} : reduce_repr p a % p = a % p := by
  unfold reduce_repr
  split
  · next h =>
    conv_rhs => rw [show a = a - p + p by omega]
    rw [Nat.add_mod_right]
  · rfl

theorem add_nocarry_eq {w a b : Nat} (h : a + b < 2 ^ w) :
    add_nocarry w a b = a + b := by
  unfold add_nocarry
  exact Nat.mod_eq_of_lt h

theorem sub_noborrow_eq {w a b : Nat} (hb : b ≤ a) (ha : a < 2 ^ w) (hbw : b < 2 ^ w) :
    sub_noborrow w a b = a - b := by
  unfold sub_noborrow
  have h1 : a + (2 ^ w - b) = 2 ^ w + (a - b) := by omega
  rw [h1, Nat.add_mod_left]
  exact Nat.mod_eq_of_lt (by omega)

theorem fp_add_assign_lt {F : SizedPrimeField} {a b : Nat}
    (htop : 2 * F.modulus < 2 ^ F.mont_power)
    (ha : a < F.modulus) (hb : b < F.modulus) :
    Fp.add_assign F a b < F.modulus := by
  unfold Fp.add_assign
  rw [add_nocarry_eq (by omega)]
  exact reduce_repr_lt (by omega) (by omega)

theorem fp_add_assign_mod {F : SizedPrimeField} {a b : Nat}
    (htop : 2 * F.modulus < 2 ^ F.mont_power)
    (ha : a < F.modulus) (hb : b < F.modulus) :
    Fp.add_assign F a b % F.modulus = (a + b) % F.modulus := by
  unfold Fp.add_assign
  rw [add_nocarry_eq (by omega), reduce_repr_mod]

theorem repr_mul2_eq {F : SizedPrimeField} {a : Nat}
    (htop : 2 * F.modulus < 2 ^ F.mont_power)
    (ha : a < F.modulus) :
    repr_mul2 F.mont_power a = 2 * a := by
  unfold repr_mul2
  exact Nat.mod_eq_of_lt (by omega)

theorem fp_double_lt {F : SizedPrimeField} {a : Nat}
    (htop : 2 * F.modulus < 2 ^ F.mont_power)
    (ha : a < F.modulus) :
    Fp.double F a < F.modulus := by
  unfold Fp.double
  rw [repr_mul2_eq htop ha]
  exact reduce_repr_lt (by omega) (by omega)

theorem fp_double_mod {F : SizedPrimeField} {a : Nat}
    (htop : 2 * F.modulus < 2 ^ F.mont_power)
    (ha : a < F.modulus) :
    Fp.double F a % F.modulus = (2 * a) % F.modulus := by
  unfold Fp.double
  rw [repr_mul2_eq htop ha, reduce_repr_mod]

theorem fp_sub_assign_lt {F : SizedPrimeField} {a b : Nat}
    (htop : 2 * F.modulus < 2 ^ F.mont_power)
    (ha : a < F.modulus) (hb : b < F.modulus) :
    Fp.sub_assign F a b < F.modulus := by
  unfold Fp.sub_assign
  split
  · next h =>
    rw [add_nocarry_eq (by omega), sub_noborrow_eq (by omega) (by omega) (by omega)]
    omega
  · next h =>
    rw [sub_noborrow_eq (by omega) (by omega) (by omega)]
    omega

theorem fp_sub_assign_mod {F : SizedPrimeField} {a b : Nat}
    (htop : 2 * F.modulus < 2 ^ F.mont_power)
    (ha : a < F.modulus) (hb : b < F.modulus) :
    Fp.sub_assign F a b % F.modulus = (a + (F.modulus - b)) % F.modulus := by
  unfold Fp.sub_assign
  split
  · next h =>
    rw [add_nocarry_eq (by omega), sub_noborrow_eq (by omega) (by omega) (by omega)]
    congr 1
    omega
  · next h =>
    rw [sub_noborrow_eq (by omega) (by omega) (by omega)]
    rw [show a + (F.modulus - b) = a - b + F.modulus by omega, Nat.add_mod_right]

theorem fp_negate_lt {F : SizedPrimeField} {a : Nat}
    (htop : 2 * F.modulus < 2 ^ F.mont_power)
    (hp : 0 < F.modulus)
    (ha : a < F.modulus) :
    Fp.negate F a < F.modulus := by
  unfold Fp.negate
  split
  · omega
  · next h =>
    rw [sub_noborrow_eq (by omega) (by omega) (by omega)]
    omega

/-- Divisibility at the heart of Montgomery reduction: with a valid
mont_inv the accumulator a * b + m * p is divisible by the radix. -/
theorem mont_divisible {F : SizedPrimeField}
    (hinv : F.modulus * F.mont_inv % 2 ^ F.mont_power = 2 ^ F.mont_power - 1)
    (a b : Nat) :
    (a * b + a * b * F.mont_inv % 2 ^ F.mont_power * F.modulus) % 2 ^ F.mont_power = 0 := by
  set w := 2 ^ F.mont_power with hw
  have hwpos : 0 < w := Nat.pos_pow_of_pos _ (by omega)
  set m := a * b * F.mont_inv % w with hm
  obtain ⟨j, hj⟩ : ∃ j, a * b * F.mont_inv = w * j + m :=
    ⟨a * b * F.mont_inv / w, (Nat.div_add_mod _ w).symm⟩
  obtain ⟨k, hk⟩ : ∃ k, F.modulus * F.mont_inv = w * k + (w - 1) := by
    refine ⟨F.modulus * F.mont_inv / w, ?_⟩
    conv_lhs => rw [← Nat.div_add_mod (F.modulus * F.mont_inv) w]
    rw [hinv]
  have key : a * b + m * F.modulus + w * (j * F.modulus) = w * (a * b * (k + 1)) := by
    have e1 : a * b + m * F.modulus + w * (j * F.modulus)
        = a * b + (w * j + m) * F.modulus := by ring
    rw [e1, ← hj]
    have e2 : a * b + a * b * F.mont_inv * F.modulus
        = a * b * (1 + F.modulus * F.mont_inv) := by ring
    rw [e2, hk]
    have e3 : 1 + (w * k + (w - 1)) = w * (k + 1) := by
      calc 1 + (w * k + (w - 1)) = w * k + w := by omega
      _ = w * (k + 1) := by ring
    rw [e3]
    ring
  have final : (a * b + m * F.modulus) % w = w * (a * b * (k + 1)) % w := by
    rw [← key, Nat.add_mul_mod_self_left]
  rw [final, Nat.mul_mod_right]

theorem mont_mul_lt {F : SizedPrimeField} {a b : Nat}
    (htop : 2 * F.modulus < 2 ^ F.mont_power)
    (hp : 0 < F.modulus)
    (ha : a < F.modulus) (hb : b < F.modulus) :
    mont_mul F a b < F.modulus := by
  unfold mont_mul
  set w := 2 ^ F.mont_power with hw
  have hwpos : 0 < w := Nat.pos_pow_of_pos _ (by omega)
  apply reduce_repr_lt hp
  have h1 : a * b < w * F.modulus := by
    have ha2 : a * b < F.modulus * F.modulus :=
      Nat.mul_lt_mul_of_lt_of_le ha (le_of_lt hb) hp
    have h2 : F.modulus * F.modulus ≤ w * F.modulus := by
      apply Nat.mul_le_mul_right
      omega
    omega
  have h3 : a * b * F.mont_inv % w * F.modulus < w * F.modulus :=
    Nat.mul_lt_mul_of_lt_of_le (Nat.mod_lt _ hwpos) (le_refl _) hp
  have hnum : a * b + a * b * F.mont_inv % w * F.modulus < w * (2 * F.modulus) := by
    have e : w * (2 * F.modulus) = w * F.modulus + w * F.modulus := by ring
    omega
  exact Nat.div_lt_of_lt_mul hnum

theorem mont_mul_mod {F : SizedPrimeField} {a b : Nat}
    (hinv : F.modulus * F.mont_inv % 2 ^ F.mont_power = 2 ^ F.mont_power - 1) :
    mont_mul F a b * 2 ^ F.mont_power % F.modulus = a * b % F.modulus := by
  unfold mont_mul
  set w := 2 ^ F.mont_power with hw
  have hwpos : 0 < w := Nat.pos_pow_of_pos _ (by omega)
  set m := a * b * F.mont_inv % w with hm
  have hdvd : w ∣ a * b + m * F.modulus :=
    Nat.dvd_of_mod_eq_zero (mont_divisible hinv a b)
  have hexact : (a * b + m * F.modulus) / w * w = a * b + m * F.modulus :=
    Nat.div_mul_cancel hdvd
  have hred : reduce_repr F.modulus ((a * b + m * F.modulus) / w) * w % F.modulus
      = (a * b + m * F.modulus) / w * w % F.modulus := by
    unfold reduce_repr
    split
    · next h =>
      set q := (a * b + m * F.modulus) / w with hq
      have hqe : q * w = (q - F.modulus) * w + w * F.modulus := by
        calc q * w = (q - F.modulus + F.modulus) * w := by rw [Nat.sub_add_cancel h]
        _ = (q - F.modulus) * w + w * F.modulus := by ring
      conv_rhs => rw [hqe]
      rw [Nat.add_mul_mod_self_right]
    · rfl
  rw [hred, hexact, Nat.add_mul_mod_self_right]

/-! ## ZMod residues of the Fp operations -/

theorem fp_add_assign_zmod {F : SizedPrimeField} {a b : Nat}
    (htop : 2 * F.modulus < 2 ^ F.mont_power)
    (ha : a < F.modulus) (hb : b < F.modulus) :
    ((Fp.add_assign F a b : Nat) : ZMod F.modulus) = (a : ZMod F.modulus) + b := by
  have h := fp_add_assign_mod htop ha hb
  have h2 : ((Fp.add_assign F a b : Nat) : ZMod F.modulus) = ((a + b : Nat) : ZMod F.modulus) :=
    (ZMod.natCast_eq_natCast_iff' _ _ _).mpr h
  rw [h2]
  push_cast
  ring

theorem fp_sub_assign_zmod {F : SizedPrimeField} {a b : Nat}
    (htop : 2 * F.modulus < 2 ^ F.mont_power)
    (ha : a < F.modulus) (hb : b < F.modulus) :
    ((Fp.sub_assign F a b : Nat) : ZMod F.modulus) = (a : ZMod F.modulus) - b := by
  have h := fp_sub_assign_mod htop ha hb
  have h2 : ((Fp.sub_assign F a b : Nat) : ZMod F.modulus)
      = ((a + (F.modulus - b) : Nat) : ZMod F.modulus) :=
    (ZMod.natCast_eq_natCast_iff' _ _ _).mpr h
  rw [h2, Nat.cast_add, Nat.cast_sub (le_of_lt hb), ZMod.natCast_self]
  ring

theorem fp_double_zmod {F : SizedPrimeField} {a : Nat}
    (htop : 2 * F.modulus < 2 ^ F.mont_power)
    (ha : a < F.modulus) :
    ((Fp.double F a : Nat) : ZMod F.modulus) = 2 * (a : ZMod F.modulus) := by
  have h := fp_double_mod htop ha
  have h2 : ((Fp.double F a : Nat) : ZMod F.modulus) = ((2 * a : Nat) : ZMod F.modulus) :=
    (ZMod.natCast_eq_natCast_iff' _ _ _).mpr h
  rw [h2]
  push_cast
  ring

theorem fp_mul_assign_zmod_radix {F : SizedPrimeField} {a b : Nat}
    (hinv : F.modulus * F.mont_inv % 2 ^ F.mont_power = 2 ^ F.mont_power - 1) :
    ((Fp.mul_assign F a b : Nat) : ZMod F.modulus) * ((2 ^ F.mont_power : Nat) : ZMod F.modulus)
      = (a : ZMod F.modulus) * b := by
  have h := mont_mul_mod (a := a) (b := b) hinv
  have h2 : ((mont_mul F a b * 2 ^ F.mont_power : Nat) : ZMod F.modulus)
      = ((a * b : Nat) : ZMod F.modulus) :=
    (ZMod.natCast_eq_natCast_iff' _ _ _).mpr h
  unfold Fp.mul_assign
  exact_mod_cast h2

/-! ## Fp2 (extension_towers/fp2.rs)

An Fp2 element is the pair of its component representations (c0, c1); the
extension is described by the non-residue beta (an Fp representation). -/

/-- fp2.rs multiply_by_non_residue for the Fp level: multiplication by the
non-residue element. -/
def Fp2.mul_by_nonresidue (F : SizedPrimeField) (beta a : Nat) : Nat :=
  Fp.mul_assign F a beta

/-- fp2.rs mul_assign: the three-multiplication Karatsuba variant. -/
def Fp2.mul_assign (F : SizedPrimeField) (beta : Nat) (a other : Nat × Nat) : Nat × Nat :=
  let v0 := Fp.mul_assign F a.1 other.1
  let v1 := Fp.mul_assign F a.2 other.2
  let c1a := Fp.add_assign F a.2 a.1
  let t0 := Fp.add_assign F other.1 other.2
  let c1b := Fp.mul_assign F c1a t0
  let c1c := Fp.sub_assign F c1b v0
  let c1d := Fp.sub_assign F c1c v1
  let v1n := Fp2.mul_by_nonresidue F beta v1
  let c0 := Fp.add_assign F v0 v1n
  (c0, c1d)

/-- fp2.rs square: the Complex method. -/
def Fp2.square (F : SizedPrimeField) (beta : Nat) (a : Nat × Nat) : Nat × Nat :=
  let v0a := Fp.sub_assign F a.1 a.2
  let t0 := Fp2.mul_by_nonresidue F beta a.2
  let v3 := Fp.sub_assign F a.1 t0
  let v2 := Fp.mul_assign F a.1 a.2
  let v0b := Fp.mul_assign F v0a v3
  let v0c := Fp.add_assign F v0b v2
  let c1 := Fp.double F v2
  let v2n := Fp2.mul_by_nonresidue F beta v2
  let c0 := Fp.add_assign F v0c v2n
  (c0, c1)

/-- Transfer of ZMod equality back to representation equality for reduced
representations. -/
theorem repr_eq_of_zmod_eq {P x y : Nat} (hx : x < P) (hy : y < P)
    (h : (x : ZMod P) = (y : ZMod P)) : x = y := by
  have h2 : x % P = y % P := (ZMod.natCast_eq_natCast_iff' _ _ _).mp h
  rw [Nat.mod_eq_of_lt hx, Nat.mod_eq_of_lt hy] at h2
  exact h2

/-- C7.  For every Fp2 element over a field descriptor with a valid
non-residue, squaring by the Complex-method formula agrees with
self-multiplication by the three-multiplication Karatsuba formula. -/
theorem fp2_square_eq_mul_self (F : SizedPrimeField) (beta a0 a1 : Nat)
    (hodd : F.modulus % 2 = 1)
    (htop : 2 * F.modulus < 2 ^ F.mont_power)
    (hinv : F.modulus * F.mont_inv % 2 ^ F.mont_power = 2 ^ F.mont_power - 1)
    (hbeta : beta < F.modulus)
    (h0 : a0 < F.modulus) (h1 : a1 < F.modulus) :
    Fp2.square F beta (a0, a1) = Fp2.mul_assign F beta (a0, a1) (a0, a1) := by
  have hp : 0 < F.modulus := by omega
  haveI : NeZero F.modulus := ⟨by omega⟩
  have hodd2 : Odd F.modulus := Nat.odd_iff.mpr hodd
  have hcop : Nat.Coprime (2 ^ F.mont_power) F.modulus :=
    Nat.Coprime.pow_left _ (Nat.coprime_two_left.mpr hodd2)
  have hunit : IsUnit ((2 ^ F.mont_power : Nat) : ZMod F.modulus) :=
    (ZMod.isUnit_iff_coprime _ _).mpr hcop
  obtain ⟨Rinv, hRinv⟩ := hunit.exists_right_inv
  have mval : ∀ x y : Nat, ((Fp.mul_assign F x y : Nat) : ZMod F.modulus)
      = (x : ZMod F.modulus) * y * Rinv := by
    intro x y
    have h := fp_mul_assign_zmod_radix (a := x) (b := y) hinv
    calc ((Fp.mul_assign F x y : Nat) : ZMod F.modulus)
        = ((Fp.mul_assign F x y : Nat) : ZMod F.modulus)
          * (((2 ^ F.mont_power : Nat) : ZMod F.modulus) * Rinv) := by rw [hRinv, mul_one]
    _ = ((Fp.mul_assign F x y : Nat) : ZMod F.modulus)
          * ((2 ^ F.mont_power : Nat) : ZMod F.modulus) * Rinv := by ring
    _ = (x : ZMod F.modulus) * y * Rinv := by rw [h]
  simp only [Fp2.square, Fp2.mul_assign, Fp2.mul_by_nonresidue]
  -- intermediate nodes of the square path
  set n1 := Fp.sub_assign F a0 a1 with hn1
  set n2 := Fp.mul_assign F a1 beta with hn2
  set n3 := Fp.sub_assign F a0 n2 with hn3
  set n4 := Fp.mul_assign F a0 a1 with hn4
  set n5 := Fp.mul_assign F n1 n3 with hn5
  set n6 := Fp.add_assign F n5 n4 with hn6
  set c1s := Fp.double F n4 with hc1s
  set n7 := Fp.mul_assign F n4 beta with hn7
  set c0s := Fp.add_assign F n6 n7 with hc0s
  -- intermediate nodes of the mul path
  set m1 := Fp.mul_assign F a0 a0 with hm1
  set m2 := Fp.mul_assign F a1 a1 with hm2
  set m3 := Fp.add_assign F a1 a0 with hm3
  set m4 := Fp.add_assign F a0 a1 with hm4
  set m5 := Fp.mul_assign F m3 m4 with hm5
  set m6 := Fp.sub_assign F m5 m1 with hm6
  set m7 := Fp.sub_assign F m6 m2 with hm7
  set m8 := Fp.mul_assign F m2 beta with hm8
  set c0m := Fp.add_assign F m1 m8 with hc0m
  -- bounds
  have hbn1 : n1 < F.modulus := fp_sub_assign_lt htop h0 h1
  have hbn2 : n2 < F.modulus := mont_mul_lt htop hp h1 hbeta
  have hbn3 : n3 < F.modulus := fp_sub_assign_lt htop h0 hbn2
  have hbn4 : n4 < F.modulus := mont_mul_lt htop hp h0 h1
  have hbn5 : n5 < F.modulus := mont_mul_lt htop hp hbn1 hbn3
  have hbn6 : n6 < F.modulus := fp_add_assign_lt htop hbn5 hbn4
  have hbc1s : c1s < F.modulus := fp_double_lt htop hbn4
  have hbn7 : n7 < F.modulus := mont_mul_lt htop hp hbn4 hbeta
  have hbc0s : c0s < F.modulus := fp_add_assign_lt htop hbn6 hbn7
  have hbm1 : m1 < F.modulus := mont_mul_lt htop hp h0 h0
  have hbm2 : m2 < F.modulus := mont_mul_lt htop hp h1 h1
  have hbm3 : m3 < F.modulus := fp_add_assign_lt htop h1 h0
  have hbm4 : m4 < F.modulus := fp_add_assign_lt htop h0 h1
  have hbm5 : m5 < F.modulus := mont_mul_lt htop hp hbm3 hbm4
  have hbm6 : m6 < F.modulus := fp_sub_assign_lt htop hbm5 hbm1
  have hbm7 : m7 < F.modulus := fp_sub_assign_lt htop hbm6 hbm2
  have hbm8 : m8 < F.modulus := mont_mul_lt htop hp hbm2 hbeta
  have hbc0m : c0m < F.modulus := fp_add_assign_lt htop hbm1 hbm8
  -- residues
  have vn1 : ((n1 : Nat) : ZMod F.modulus) = (a0 : ZMod F.modulus) - a1 :=
    fp_sub_assign_zmod htop h0 h1
  have vn2 : ((n2 : Nat) : ZMod F.modulus) = (a1 : ZMod F.modulus) * beta * Rinv := mval a1 beta
  have vn3 : ((n3 : Nat) : ZMod F.modulus) = (a0 : ZMod F.modulus) - n2 :=
    fp_sub_assign_zmod htop h0 hbn2
  have vn4 : ((n4 : Nat) : ZMod F.modulus) = (a0 : ZMod F.modulus) * a1 * Rinv := mval a0 a1
  have vn5 : ((n5 : Nat) : ZMod F.modulus) = (n1 : ZMod F.modulus) * n3 * Rinv := mval n1 n3
  have vn6 : ((n6 : Nat) : ZMod F.modulus) = (n5 : ZMod F.modulus) + n4 :=
    fp_add_assign_zmod htop hbn5 hbn4
  have vc1s : ((c1s : Nat) : ZMod F.modulus) = 2 * (n4 : ZMod F.modulus) :=
    fp_double_zmod htop hbn4
  have vn7 : ((n7 : Nat) : ZMod F.modulus) = (n4 : ZMod F.modulus) * beta * Rinv := mval n4 beta
  have vc0s : ((c0s : Nat) : ZMod F.modulus) = (n6 : ZMod F.modulus) + n7 :=
    fp_add_assign_zmod htop hbn6 hbn7
  have vm1 : ((m1 : Nat) : ZMod F.modulus) = (a0 : ZMod F.modulus) * a0 * Rinv := mval a0 a0
  have vm2 : ((m2 : Nat) : ZMod F.modulus) = (a1 : ZMod F.modulus) * a1 * Rinv := mval a1 a1
  have vm3 : ((m3 : Nat) : ZMod F.modulus) = (a1 : ZMod F.modulus) + a0 :=
    fp_add_assign_zmod htop h1 h0
  have vm4 : ((m4 : Nat) : ZMod F.modulus) = (a0 : ZMod F.modulus) + a1 :=
    fp_add_assign_zmod htop h0 h1
  have vm5 : ((m5 : Nat) : ZMod F.modulus) = (m3 : ZMod F.modulus) * m4 * Rinv := mval m3 m4
  have vm6 : ((m6 : Nat) : ZMod F.modulus) = (m5 : ZMod F.modulus) - m1 :=
    fp_sub_assign_zmod htop hbm5 hbm1
  have vm7 : ((m7 : Nat) : ZMod F.modulus) = (m6 : ZMod F.modulus) - m2 :=
    fp_sub_assign_zmod htop hbm6 hbm2
  have vm8 : ((m8 : Nat) : ZMod F.modulus) = (m2 : ZMod F.modulus) * beta * Rinv := mval m2 beta
  have vc0m : ((c0m : Nat) : ZMod F.modulus) = (m1 : ZMod F.modulus) + m8 :=
    fp_add_assign_zmod htop hbm1 hbm8
  -- assemble
  have hc0 : c0s = c0m := by
    apply repr_eq_of_zmod_eq hbc0s hbc0m
    rw [vc0s, vn6, vn5, vn1, vn3, vn2, vn4, vn7, vn4, vc0m, vm1, vm8, vm2]
    ring
  have hc1 : c1s = m7 := by
    apply repr_eq_of_zmod_eq hbc1s hbm7
    rw [vc1s, vn4, vm7, vm6, vm5, vm3, vm4, vm1, vm2]
    ring
  show (c0s, c1s) = (c0m, m7)
  rw [hc0, hc1]

/-! ## Concrete small field descriptor used by witnesses

A one-limb-style descriptor with width 8, modulus 7 and
mont_inv = 73 (7 * 73 = 511 = 2 * 256 - 1, so p * mont_inv = -1 mod 256). -/

def F7 : SizedPrimeField :=
  { mont_power := 8, modulus := 7, mont_inv := 73 }

/-- Witness for C7 at a concrete input over F7 with non-residue 3. -/
theorem fp2_square_eq_mul_self_witness :
    F7.modulus % 2 = 1 ∧ 2 * F7.modulus < 2 ^ F7.mont_power
    ∧ Fp2.square F7 3 (2, 5) = Fp2.mul_assign F7 3 (2, 5) (2, 5) :=
  ⟨by decide, by decide,
    fp2_square_eq_mul_self F7 3 2 5 (by decide) (by decide) (by decide)
      (by decide) (by decide) (by decide)⟩

/-- C8.  Negation of a reduced Fp representation yields p - x, except that
zero is left unchanged. -/
theorem fp_negate_spec (F : SizedPrimeField) (a : Nat)
    (htop : 2 * F.modulus < 2 ^ F.mont_power)
    (ha : a < F.modulus) :
    Fp.negate F a = if a = 0 then 0 else F.modulus - a := by
  unfold Fp.negate
  split
  · next h => rw [h]
  · next h =>
    exact sub_noborrow_eq (by omega) (by omega) (by omega)

/-- Witness for C8 at a concrete input over F7. -/
theorem fp_negate_spec_witness :
    Fp.negate F7 3 = if (3 : Nat) = 0 then 0 else F7.modulus - 3 :=
  fp_negate_spec F7 3 (by decide) (by decide)

/-- C9.  Each Fp arithmetic operation preserves the field-element
invariant: for an odd modulus with a zero top bit (2 p below the
representation width), operands strictly below p produce results strictly
below p. -/
theorem fp_ops_preserve_invariant (F : SizedPrimeField)
    (hodd : F.modulus % 2 = 1)
    (htop : 2 * F.modulus < 2 ^ F.mont_power) :
    (∀ a b, a < F.modulus → b < F.modulus → Fp.add_assign F a b < F.modulus)
    ∧ (∀ a, a < F.modulus → Fp.double F a < F.modulus)
    ∧ (∀ a b, a < F.modulus → b < F.modulus → Fp.sub_assign F a b < F.modulus)
    ∧ (∀ a, a < F.modulus → Fp.negate F a < F.modulus)
    ∧ (∀ a b, a < F.modulus → b < F.modulus → Fp.mul_assign F a b < F.modulus)
    ∧ (∀ a, a < F.modulus → Fp.square F a < F.modulus) := by
  have hp : 0 < F.modulus := by omega
  refine ⟨fun a b ha hb => fp_add_assign_lt htop ha hb,
    fun a ha => fp_double_lt htop ha,
    fun a b ha hb => fp_sub_assign_lt htop ha hb,
    fun a ha => fp_negate_lt htop hp ha,
    fun a b ha hb => mont_mul_lt htop hp ha hb,
    fun a ha => mont_mul_lt htop hp ha ha⟩

/-- Witness for C9 at concrete inputs over F7. -/
theorem fp_ops_preserve_invariant_witness :
    Fp.add_assign F7 3 5 < F7.modulus
    ∧ Fp.mul_assign F7 4 6 < F7.modulus
    ∧ Fp.negate F7 2 < F7.modulus :=
  ⟨(fp_ops_preserve_invariant F7 (by decide) (by decide)).1 3 5 (by decide) (by decide),
    (fp_ops_preserve_invariant F7 (by decide) (by decide)).2.2.2.2.1 4 6 (by decide) (by decide),
    (fp_ops_preserve_invariant F7 (by decide) (by decide)).2.2.2.1 2 (by decide)⟩

/-! ## Bounded binary EEA inversion (fp.rs eea_inverse)

The algorithm state is (u, v, b, c, iterations): u and v are raw
representations, b and c are Fp elements, and the shared iteration counter
is capped at max = 2 * mont_power.  The two inner even-stripping loops of
fp.rs share one shape and are embedded once. -/

/-- One update of the Bezout accumulator inside an even-stripping loop of
eea_inverse: halve if even, else add the modulus (wrapping) and halve. -/
def eea_b_update (F : SizedPrimeField) (b : Nat) : Nat :=
  if b % 2 = 0 then repr_div2 b else repr_div2 (add_nocarry F.mont_power b F.modulus)

/-- Inner even-stripping loop of eea_inverse: while the working value is
even and the iteration cap is not reached, halve it, update the
accumulator and count one iteration.  Returns (value, accumulator,
iterations). -/
def eea_strip (F : SizedPrimeField) (max u b iters : Nat) : Nat × Nat × Nat :=
  if u % 2 = 0 ∧ iters < max then
    eea_strip F max (u / 2) (eea_b_update F b) (iters + 1)
  else (u, b, iters)
termination_by max - iters

theorem eea_strip_iters_le (F : SizedPrimeField) (max : Nat) :
    ∀ u b iters, iters ≤ (eea_strip F max u b iters).2.2 := by
  intro u b iters
  induction u, b, iters using eea_strip.induct F max with
  | case1 u b iters h ih =>
    rw [eea_strip, if_pos h]
    omega
  | case2 u b iters h =>
    rw [eea_strip, if_neg h]

theorem eea_strip_le_max (F : SizedPrimeField) (max : Nat) :
    ∀ u b iters, iters ≤ max → (eea_strip F max u b iters).2.2 ≤ max := by
  intro u b iters
  induction u, b, iters using eea_strip.induct F max with
  | case1 u b iters h ih =>
    intro hle
    rw [eea_strip, if_pos h]
    exact ih (by omega)
  | case2 u b iters h =>
    intro hle
    rw [eea_strip, if_neg h]
    exact hle

theorem eea_strip_no_step (F : SizedPrimeField) (max u b iters : Nat)
    (hlt : iters < max) (hsame : (eea_strip F max u b iters).2.2 = iters) :
    (eea_strip F max u b iters).1 = u ∧ u % 2 = 1 := by
  by_cases h : u % 2 = 0 ∧ iters < max
  · exfalso
    have h2 := eea_strip_iters_le F max (u / 2) (eea_b_update F b) (iters + 1)
    rw [eea_strip, if_pos h] at hsame
    omega
  · rw [eea_strip, if_neg h]
    refine ⟨rfl, ?_⟩
    omega

/-- Final state of the main eea_inverse loop. -/
structure EeaResult where
  found : Bool
  u : Nat
  v : Nat
  b : Nat
  c : Nat
  iters : Nat

/-- Main loop of eea_inverse: while the counter is below the cap, exit
successfully as soon as u or v is one; otherwise strip the even factors of
u and then of v (sharing the counter), and subtract the smaller of u, v
from the larger (the comparison guarantees the representation subtraction
has no borrow, so it is natural subtraction), adjusting the matching
Bezout accumulator with a field subtraction. -/
def eea_loop (F : SizedPrimeField) (max u v b c iters : Nat) : EeaResult :=
  if hiter : iters < max then
    if u = 1 ∨ v = 1 then ⟨true, u, v, b, c, iters⟩
    else
      let su := eea_strip F max u b iters
      let sv := eea_strip F max v c su.2.2
      if sv.1 < su.1 then
        eea_loop F max (su.1 - sv.1) sv.1 (Fp.sub_assign F su.2.1 sv.2.1) sv.2.1 sv.2.2
      else
        eea_loop F max su.1 (sv.1 - su.1) su.2.1 (Fp.sub_assign F sv.2.1 su.2.1) sv.2.2
  else ⟨false, u, v, b, c, iters⟩
termination_by (max - iters, u + v)
decreasing_by
  · have h1 := eea_strip_iters_le F max u b iters
    have h2 := eea_strip_iters_le F max v c (eea_strip F max u b iters).2.2
    rcases Nat.lt_or_ge iters (eea_strip F max v c (eea_strip F max u b iters).2.2).2.2 with hlt | hge
    · exact Prod.Lex.left _ _ (by omega)
    · have hsame1 : (eea_strip F max u b iters).2.2 = iters := by omega
      have hu := eea_strip_no_step F max u b iters hiter hsame1
      have hv := eea_strip_no_step F max v c (eea_strip F max u b iters).2.2 (by omega) (by omega)
      have heq : max - (eea_strip F max v c (eea_strip F max u b iters).2.2).2.2 = max - iters := by
        omega
      rw [heq]
      apply Prod.Lex.right
      omega
  · have h1 := eea_strip_iters_le F max u b iters
    have h2 := eea_strip_iters_le F max v c (eea_strip F max u b iters).2.2
    rcases Nat.lt_or_ge iters (eea_strip F max v c (eea_strip F max u b iters).2.2).2.2 with hlt | hge
    · exact Prod.Lex.left _ _ (by omega)
    · have hsame1 : (eea_strip F max u b iters).2.2 = iters := by omega
      have hu := eea_strip_no_step F max u b iters hiter hsame1
      have hv := eea_strip_no_step F max v c (eea_strip F max u b iters).2.2 (by omega) (by omega)
      have heq : max - (eea_strip F max v c (eea_strip F max u b iters).2.2).2.2 = max - iters := by
        omega
      rw [heq]
      apply Prod.Lex.right
      omega

theorem eea_loop_iters_le (F : SizedPrimeField) (max : Nat) :
    ∀ u v b c iters, iters ≤ max → (eea_loop F max u v b c iters).iters ≤ max := by
  intro u v b c iters
  induction u, v, b, c, iters using eea_loop.induct F max with
  | case1 u v b c iters hiter hone =>
    intro hle
    rw [eea_loop, dif_pos hiter, if_pos hone]
    exact hle
  | case2 u v b c iters hiter hone su sv hlt ih =>
    intro hle
    rw [eea_loop, dif_pos hiter, if_neg hone]
    simp only [if_pos hlt]
    apply ih
    have h1 := eea_strip_le_max F max u b iters hle
    exact eea_strip_le_max F max v c (eea_strip F max u b iters).2.2 h1
  | case3 u v b c iters hiter hone su sv hlt ih =>
    intro hle
    rw [eea_loop, dif_pos hiter, if_neg hone]
    simp only [if_neg hlt]
    apply ih
    have h1 := eea_strip_le_max F max u b iters hle
    exact eea_strip_le_max F max v c (eea_strip F max u b iters).2.2 h1
  | case4 u v b c iters hiter =>
    intro hle
    rw [eea_loop, dif_neg hiter]
    exact hle

/-- fp.rs eea_inverse: none for zero; otherwise run the capped loop with
u = x, v = modulus, b = R ^ 2 (the reduction-avoiding start), c = 0; if the
loop exits without witnessing u = 1 or v = 1 the answer is none, otherwise
b (for u = 1) or c. -/
def Fp.eea_inverse (F : SizedPrimeField) (x : Nat) : Option Nat :=
  if x = 0 then none
  else
    let max := 2 * F.mont_power
    let r := eea_loop F max x F.modulus (mont_r2 F) 0 0
    if r.found = false then none
    else if r.u = 1 then some r.b else some r.c

/-- C6.  The bounded binary EEA inverter: its shared iteration counter
never exceeds the cap 2 * mont_power (so the loop terminates within the
cap), it returns none on zero input, and it returns none whenever the loop
exits with the cap exhausted before u or v reached one. -/
theorem fp_eea_inverse_spec (F : SizedPrimeField) (x : Nat) :
    (x = 0 → Fp.eea_inverse F x = none)
    ∧ (eea_loop F (2 * F.mont_power) x F.modulus (mont_r2 F) 0 0).iters ≤ 2 * F.mont_power
    ∧ ((eea_loop F (2 * F.mont_power) x F.modulus (mont_r2 F) 0 0).found = false →
        Fp.eea_inverse F x = none) := by
  refine ⟨?_, ?_, ?_⟩
  · intro hx
    unfold Fp.eea_inverse
    rw [if_pos hx]
  · exact eea_loop_iters_le F (2 * F.mont_power) x F.modulus (mont_r2 F) 0 0 (by omega)
  · intro hfound
    unfold Fp.eea_inverse
    by_cases hx : x = 0
    · rw [if_pos hx]
    · rw [if_neg hx]
      simp only [hfound, if_pos]

/-- Witness for C6: zero input over F7 yields none. -/
theorem fp_eea_inverse_spec_witness : Fp.eea_inverse F7 0 = none :=
  (fp_eea_inverse_spec F7 0).1 rfl

/-! ## MNT6 pairing engine (pairings/mnt6/mod.rs)

The Rust engine is generic over the field implementations; the embedding
mirrors that by abstracting the Fp3 and Fp6 towers as records of
operations (fp3.rs and fp6_as_2_over_3.rs are not among the provided
sources).  The base-field G1 coordinates stay Nat representations. -/

/-- Operations of the cubic extension Fp3 used by the MNT6 engine. -/
structure Fp3Ops (γ : Type) where
  zero : γ
  one : γ
  is_zero : γ → Bool
  add : γ → γ → γ
  sub : γ → γ → γ
  double : γ → γ
  negate : γ → γ
  square : γ → γ
  mul : γ → γ → γ
  mul_by_fp : γ → Nat → γ
  fp_as_c0 : Nat → γ
  inverse : γ → Option γ

/-- Operations of the top extension Fp6 (as 2 over 3) used by the MNT6
engine; an Fp6 element is the pair (c0, c1) of Fp3 elements. -/
structure Fp6Ops (γ : Type) where
  one : γ × γ
  square : γ × γ → γ × γ
  mul : γ × γ → γ × γ → γ × γ
  inverse : γ × γ → Option (γ × γ)
  frobenius_map : γ × γ → Nat → γ × γ
  cyclotomic_exp : γ × γ → Nat → γ × γ

/-- Jacobian curve point over the base field (weierstrass/curve.rs is not
among the provided sources; per the spec, Z = 0 encodes the identity). -/
structure CurvePointFp where
  x : Nat
  y : Nat
  z : Nat

/-- Jacobian curve point over the Fp3 twist. -/
structure CurvePointFp3 (γ : Type) where
  x : γ
  y : γ
  z : γ

/-- MNT6 engine parameters: the ate loop parameter with its sign, the two
final-exponentiation chunks with the sign of w0, the twist element and the
A coefficient of the twist curve. -/
structure MNT6Inst (γ : Type) where
  x : Nat
  x_is_negative : Bool
  exp_w0 : Nat
  exp_w1 : Nat
  exp_w0_is_negative : Bool
  twist : γ
  curve_twist_a : γ

/-- Precomputed G1 data of the MNT6 engine. -/
structure PrecomputedG1 (γ : Type) where
  x : Nat
  y : Nat
  x_by_twist : γ
  y_by_twist : γ

/-- Doubling coefficients of one ate loop step. -/
structure AteDoubleCoefficients (γ : Type) where
  c_h : γ
  c_4c : γ
  c_j : γ
  c_l : γ

/-- Addition coefficients of one ate loop step. -/
structure AteAdditionCoefficients (γ : Type) where
  c_l1 : γ
  c_rz : γ

/-- Precomputed G2 data of the MNT6 engine. -/
structure PrecomputedG2 (γ : Type) where
  x : γ
  y : γ
  x_over_twist : γ
  y_over_twist : γ
  double_coefficients : List (AteDoubleCoefficients γ)
  addition_coefficients : List (AteAdditionCoefficients γ)

/-- Extended projective coordinates (X, Y, Z, T) with T = Z ^ 2 driving
the precomputation. -/
structure ExtendedCoordinates (γ : Type) where
  x : γ
  y : γ
  z : γ
  t : γ

/-- MNT6 doubling_step, operation for operation as in the source. -/
def doubling_step {γ : Type} (O : Fp3Ops γ) (twist_a : γ) (r : ExtendedCoordinates γ) :
    AteDoubleCoefficients γ × ExtendedCoordinates γ :=
  let a := O.square r.t
  let b := O.square r.x
  let c := O.square r.y
  let d := O.square c
  let e := O.sub (O.sub (O.square (O.add r.x c)) b) d
  let f := O.add (O.add (O.add (O.mul twist_a a) b) b) b
  let g := O.square f
  let d_eight := O.double (O.double (O.double d))
  let t0 := O.double (O.double e)
  let x := O.sub g t0
  let y := O.sub (O.mul (O.sub (O.double e) x) f) d_eight
  let t0b := O.square r.z
  let z := O.sub (O.sub (O.square (O.add r.y r.z)) c) t0b
  let t := O.square z
  let c_h := O.sub (O.sub (O.square (O.add z r.t)) t) a
  let c_4c := O.double (O.double c)
  let c_j := O.sub (O.sub (O.square (O.add f r.t)) g) a
  let c_l := O.sub (O.sub (O.square (O.add f r.x)) g) b
  (⟨c_h, c_4c, c_j, c_l⟩, ⟨x, y, z, t⟩)

/-- MNT6 addition_step, operation for operation as in the source. -/
def addition_step {γ : Type} (O : Fp3Ops γ) (x y : γ) (r : ExtendedCoordinates γ) :
    AteAdditionCoefficients γ × ExtendedCoordinates γ :=
  let a := O.square y
  let b := O.mul r.t x
  let d := O.mul (O.sub (O.sub (O.square (O.add r.z y)) a) r.t) r.t
  let h := O.sub b r.x
  let i := O.square h
  let e := O.double (O.double i)
  let j := O.mul h e
  let v := O.mul r.x e
  let l1 := O.sub (O.sub d r.y) r.y
  let xn := O.sub (O.sub (O.sub (O.square l1) j) v) v
  let t0 := O.mul (O.double r.y) j
  let yn := O.sub (O.mul (O.sub v xn) l1) t0
  let zn := O.sub (O.sub (O.square (O.add r.z h)) r.t) i
  let tn := O.square zn
  (⟨l1, zn⟩, ⟨xn, yn, zn, tn⟩)

/-- MNT6 precompute_g1. -/
def precompute_g1 {γ : Type} (O : Fp3Ops γ) (twist : γ) (g1 : CurvePointFp) :
    PrecomputedG1 γ :=
  ⟨g1.x, g1.y, O.mul_by_fp twist g1.x, O.mul_by_fp twist g1.y⟩

/-- Main bit loop of precompute_g2: per bit below the MSB one doubling step
(its coefficients pushed), plus one addition step against the affine point
when the bit is set. -/
def precompute_g2_fold {γ : Type} (O : Fp3Ops γ) (twist_a qx qy : γ) :
    List Bool → ExtendedCoordinates γ →
    List (AteDoubleCoefficients γ) × List (AteAdditionCoefficients γ) × ExtendedCoordinates γ
  | [], r => ([], [], r)
  | bit :: rest, r =>
    let step := doubling_step O twist_a r
    if bit then
      let astep := addition_step O qx qy step.2
      let acc := precompute_g2_fold O twist_a qx qy rest astep.2
      (step.1 :: acc.1, astep.1 :: acc.2.1, acc.2.2)
    else
      let acc := precompute_g2_fold O twist_a qx qy rest step.2
      (step.1 :: acc.1, acc.2.1, acc.2.2)

/-- The double/addition coefficient lists and the final extended state of
the bit loop of precompute_g2, starting from (X, Y, 1, 1). -/
def precompute_g2_main {γ : Type} (O : Fp3Ops γ) (inst : MNT6Inst γ)
    (q : CurvePointFp3 γ) :
    List (AteDoubleCoefficients γ) × List (AteAdditionCoefficients γ) × ExtendedCoordinates γ :=
  precompute_g2_fold O inst.curve_twist_a q.x q.y (loop_bits inst.x) ⟨q.x, q.y, O.one, O.one⟩

/-- MNT6 precompute_g2: coordinates over the twist, extended state started
at (X, Y, 1, 1), the bit loop, and (for negative x) one extra addition
step built from the affine coordinates of -R, requiring the inverse of
R.Z; a missing inverse is the error. -/
def precompute_g2 {γ : Type} (O : Fp3Ops γ) (inst : MNT6Inst γ)
    (q : CurvePointFp3 γ) (twist_inv : γ) : Option (PrecomputedG2 γ) :=
  let x_over_twist := O.mul q.x twist_inv
  let y_over_twist := O.mul q.y twist_inv
  let acc := precompute_g2_main O inst q
  if inst.x_is_negative then
    match O.inverse acc.2.2.z with
    | none => none
    | some rz_inv =>
      let rz2_inv := O.square rz_inv
      let rz3_inv := O.mul rz_inv rz2_inv
      let minus_r_affine_x := O.mul rz2_inv acc.2.2.x
      let minus_r_affine_y := O.negate (O.mul rz3_inv acc.2.2.y)
      let astep := addition_step O minus_r_affine_x minus_r_affine_y acc.2.2
      some ⟨q.x, q.y, x_over_twist, y_over_twist, acc.1, acc.2.1 ++ [astep.1]⟩
  else
    some ⟨q.x, q.y, x_over_twist, y_over_twist, acc.1, acc.2.1⟩

/-- The doubling-step line function value g_RR at P: c0 from c_j, c_l,
c_4c against x_by_twist, c1 from c_h against y_by_twist. -/
def g_rr_line {γ : Type} (O : Fp3Ops γ) (pB : PrecomputedG1 γ)
    (dc : AteDoubleCoefficients γ) : γ × γ :=
  (O.sub (O.add (O.negate (O.mul dc.c_j pB.x_by_twist)) dc.c_l) dc.c_4c,
   O.mul dc.c_h pB.y_by_twist)

/-- The addition-step line function value g_RQ at P: c0 from c_rz against
y_by_twist, c1 the negated sum of y_over_twist * c_rz and l1 * c_l1. -/
def g_rq_line {γ : Type} (O : Fp3Ops γ) (pB : PrecomputedG1 γ)
    (l1_coeff y_over_twist : γ) (ac : AteAdditionCoefficients γ) : γ × γ :=
  (O.mul ac.c_rz pB.y_by_twist,
   O.negate (O.add (O.mul y_over_twist ac.c_rz) (O.mul l1_coeff ac.c_l1)))

/-- Bit loop of ate_pairing_loop, consuming the precomputed coefficient
buffers by explicit indices exactly as the source does; an out-of-range
index (a Rust slice panic) is the outer none. -/
def ate_loop_go {γ : Type} (O : Fp3Ops γ) (O6 : Fp6Ops γ) (pB : PrecomputedG1 γ)
    (l1_coeff y_over_twist : γ)
    (dcs : List (AteDoubleCoefficients γ)) (acs : List (AteAdditionCoefficients γ)) :
    List Bool → Nat → Nat → γ × γ → Option ((γ × γ) × Nat × Nat)
  | [], dbl_idx, add_idx, f => some (f, dbl_idx, add_idx)
  | bit :: rest, dbl_idx, add_idx, f =>
    match dcs.get? dbl_idx with
    | none => none
    | some dc =>
      let f1 := O6.mul (O6.square f) (g_rr_line O pB dc)
      if bit then
        match acs.get? add_idx with
        | none => none
        | some ac =>
          let f2 := O6.mul f1 (g_rq_line O pB l1_coeff y_over_twist ac)
          ate_loop_go O O6 pB l1_coeff y_over_twist dcs acs rest (dbl_idx + 1) (add_idx + 1) f2
      else
        ate_loop_go O O6 pB l1_coeff y_over_twist dcs acs rest (dbl_idx + 1) add_idx f1

/-- MNT6 ate_pairing_loop: twist inverse, G1/G2 precomputation, the bit
loop, and for negative x the extra line function followed by inverting the
accumulator.  Errors (Err in the source) are Except.error; the outer none
marks an index panic. -/
def ate_pairing_loop {γ : Type} (O : Fp3Ops γ) (O6 : Fp6Ops γ) (inst : MNT6Inst γ)
    (point : CurvePointFp) (twist_point : CurvePointFp3 γ) :
    Option (Except Unit (γ × γ)) :=
  match O.inverse inst.twist with
  | none => some (Except.error ())
  | some twist_inv =>
    let p := precompute_g1 O inst.twist point
    match precompute_g2 O inst twist_point twist_inv with
    | none => some (Except.error ())
    | some q =>
      let l1_coeff := O.sub (O.fp_as_c0 p.x) q.x_over_twist
      match ate_loop_go O O6 p l1_coeff q.y_over_twist q.double_coefficients
          q.addition_coefficients (loop_bits inst.x) 0 0 O6.one with
      | none => none
      | some (f, _, add_idx) =>
        if inst.x_is_negative then
          match q.addition_coefficients.get? add_idx with
          | none => none
          | some ac =>
            let f2 := O6.mul f (g_rq_line O p l1_coeff q.y_over_twist ac)
            match O6.inverse f2 with
            | none => some (Except.error ())
            | some finv => some (Except.ok finv)
        else
          some (Except.ok f)

/-- MNT6 miller_loop: the product of the per-pair ate loops, starting from
the Fp6 one. -/
def miller_loop {γ : Type} (O : Fp3Ops γ) (O6 : Fp6Ops γ) (inst : MNT6Inst γ) :
    List (CurvePointFp × CurvePointFp3 γ) → γ × γ → Option (Except Unit (γ × γ))
  | [], f => some (Except.ok f)
  | pq :: rest, f =>
    match ate_pairing_loop O O6 inst pq.1 pq.2 with
    | none => none
    | some (Except.error e) => some (Except.error e)
    | some (Except.ok g) => miller_loop O O6 inst rest (O6.mul f g)

/-- MNT6 final_exponentiation_part_one: raise to (q ^ 3 - 1) (q + 1) using
the cube Frobenius, a multiplication by the inverse, a Frobenius and a
multiplication. -/
def final_exponentiation_part_one {γ : Type} (O6 : Fp6Ops γ) (elt elt_inv : γ × γ) :
    γ × γ :=
  let elt_q3 := O6.frobenius_map elt 3
  let elt_q3_over_elt := O6.mul elt_q3 elt_inv
  let alpha := O6.frobenius_map elt_q3_over_elt 1
  O6.mul alpha elt_q3_over_elt

/-- MNT6 final_exponentiation_part_two: a Frobenius of elt, a cyclotomic
power w1 of that, times a cyclotomic power w0 of elt or elt_inv according
to the sign of w0. -/
def final_exponentiation_part_two {γ : Type} (O6 : Fp6Ops γ) (inst : MNT6Inst γ)
    (elt elt_inv : γ × γ) : γ × γ :=
  let elt_q := O6.frobenius_map elt 1
  let w1_part := O6.cyclotomic_exp elt_q inst.exp_w1
  let w0_part :=
    if inst.exp_w0_is_negative then O6.cyclotomic_exp elt_inv inst.exp_w0
    else O6.cyclotomic_exp elt inst.exp_w0
  O6.mul w1_part w0_part

/-- MNT6 final_exponentiation: none when the Miller output is not
invertible, otherwise part two applied to part one of (f, f inverse) and
of (f inverse, f). -/
def final_exponentiation {γ : Type} (O6 : Fp6Ops γ) (inst : MNT6Inst γ) (f : γ × γ) :
    Option (γ × γ) :=
  match O6.inverse f with
  | none => none
  | some value_inv =>
    some (final_exponentiation_part_two O6 inst
      (final_exponentiation_part_one O6 f value_inv)
      (final_exponentiation_part_one O6 value_inv f))

/-- MNT6 pair: length check, the (gas-metering-relaxed) emptiness check,
identity filtering, the early one for an empty surviving list, the Miller
loop and the final exponentiation.  The outer none marks an index panic,
the inner none is the None of the source. -/
def mnt6_pair {γ : Type} (O : Fp3Ops γ) (O6 : Fp6Ops γ) (inst : MNT6Inst γ)
    (in_gas_metering : Bool)
    (points : List CurvePointFp) (twists : List (CurvePointFp3 γ)) :
    Option (Option (γ × γ)) :=
  if points.length ≠ twists.length then some none
  else if ¬in_gas_metering ∧ (points.length = 0 ∨ twists.length = 0) then some none
  else
    let pairs := (points.zip twists).filter
      (fun pq => !(pq.1.z == 0) && !(O.is_zero pq.2.z))
    if pairs.length = 0 then some (some O6.one)
    else
      match miller_loop O O6 inst pairs O6.one with
      | none => none
      | some (Except.error _) => some none
      | some (Except.ok f) => some (final_exponentiation O6 inst f)

/-! ## Square-and-multiply exponentiation

Modelled from the spec: pow and cyclotomic_exp drive a left-to-right
square-and-multiply loop over an MSB-first bit iterator, with a found_one
flag skipping the leading zeros (the shape of Fp::pow in fp.rs). -/

/-- The square-and-multiply loop: before the first set bit nothing happens;
afterwards each bit squares the accumulator and a set bit multiplies the
base in. -/
def sq_mul_go {α : Type} (mul : α → α → α) (sq : α → α) (base : α) :
    Bool → α → List Bool → α
  | _, res, [] => res
  | found, res, i :: rest =>
    let r1 := if found then sq res else res
    let r2 := if i then mul r1 base else r1
    sq_mul_go mul sq base (found || i) r2 rest

/-- Exponentiation by square-and-multiply over the MSB-first bits of the
exponent, starting from one with the found flag down. -/
def sq_mul_exp {α : Type} (mul : α → α → α) (sq : α → α) (one : α) (base : α)
    (e : Nat) : α :=
  sq_mul_go mul sq base false one (nat_bits_be e)

theorem of_bits_be_generalized (l : List Bool) :
    ∀ n, l.foldl (fun m b => 2 * m + (if b then 1 else 0)) n
      = n * 2 ^ l.length + of_bits_be l := by
  induction l with
  | nil => intro n; simp [of_bits_be]
  | cons b rest ih =>
    intro n
    have h1 : of_bits_be (b :: rest)
        = (if b then 1 else 0) * 2 ^ rest.length + of_bits_be rest := by
      unfold of_bits_be
      simp only [List.foldl_cons]
      rw [ih]
      simp [of_bits_be]
    simp only [List.foldl_cons]
    rw [ih, h1]
    simp only [List.length_cons]
    cases b <;> simp <;> ring

theorem of_bits_be_cons (b : Bool) (rest : List Bool) :
    of_bits_be (b :: rest) = (if b then 1 else 0) * 2 ^ rest.length + of_bits_be rest := by
  unfold of_bits_be
  simp only [List.foldl_cons]
  rw [of_bits_be_generalized]
  simp [of_bits_be]

theorem of_bits_be_append_bit (l : List Bool) (b : Bool) :
    of_bits_be (l ++ [b]) = 2 * of_bits_be l + (if b then 1 else 0) := by
  unfold of_bits_be
  rw [List.foldl_append]
  simp

theorem of_bits_be_nat_bits_le_fuel :
    ∀ fuel n, n ≤ fuel → of_bits_be (nat_bits_le_fuel fuel n).reverse = n := by
  intro fuel
  induction fuel with
  | zero =>
    intro n hn
    have h : n = 0 := by omega
    subst h
    simp [nat_bits_le_fuel, of_bits_be]
  | succ fuel ih =>
    intro n hn
    by_cases h0 : n = 0
    · subst h0
      simp [nat_bits_le_fuel, of_bits_be]
    · rw [nat_bits_le_fuel, if_neg h0]
      simp only [List.reverse_cons]
      rw [of_bits_be_append_bit, ih (n / 2) (by omega)]
      rcases Nat.mod_two_eq_zero_or_one n with h | h <;> simp [h] <;> omega

/-- Bits of n decode back to n. -/
theorem of_bits_be_nat_bits_be (n : Nat) : of_bits_be (nat_bits_be n) = n := by
  unfold nat_bits_be nat_bits_le
  exact of_bits_be_nat_bits_le_fuel n n (le_refl n)

theorem sq_mul_go_found {M : Type} [CommMonoid M] (a : M) :
    ∀ (l : List Bool) (r : M),
      sq_mul_go (fun x y => x * y) (fun x => x * x) a true r l
        = r ^ 2 ^ l.length * a ^ of_bits_be l := by
  intro l
  induction l with
  | nil => intro r; simp [sq_mul_go, of_bits_be]
  | cons b rest ih =>
    intro r
    rw [of_bits_be_cons]
    cases b
    · rw [sq_mul_go]
      simp only [Bool.true_or, if_true, Bool.false_eq_true, if_false]
      rw [ih (r * r), ← pow_two r, ← pow_mul]
      simp only [List.length_cons, Bool.false_eq_true, if_false, zero_mul, zero_add]
      congr 2
      rw [pow_succ]
      exact Nat.mul_comm 2 (2 ^ rest.length)
    · rw [sq_mul_go]
      simp only [Bool.true_or, if_true]
      rw [ih (r * r * a), mul_pow, ← pow_two r, ← pow_mul]
      simp only [List.length_cons, if_true, one_mul]
      rw [mul_assoc]
      congr 2
      · rw [pow_succ]
        exact Nat.mul_comm 2 (2 ^ rest.length)
      · rw [pow_add]

theorem sq_mul_go_unfound {M : Type} [CommMonoid M] (a : M) :
    ∀ l : List Bool,
      sq_mul_go (fun x y => x * y) (fun x => x * x) a false 1 l = a ^ of_bits_be l := by
  intro l
  induction l with
  | nil => simp [sq_mul_go, of_bits_be]
  | cons b rest ih =>
    rw [of_bits_be_cons]
    cases b
    · rw [sq_mul_go]
      simp only [Bool.false_eq_true, if_false, Bool.false_or]
      rw [ih]
      simp
    · rw [sq_mul_go]
      simp only [if_true, Bool.false_eq_true, if_false, Bool.false_or]
      rw [sq_mul_go_found]
      simp only [one_mul, List.length_cons, if_true]
      rw [pow_add]

/-- The square-and-multiply loop computes the mathematical power. -/
theorem sq_mul_exp_pow {M : Type} [CommMonoid M] (a : M) (e : Nat) :
    sq_mul_exp (fun x y => x * y) (fun x => x * x) 1 a e = a ^ e := by
  unfold sq_mul_exp
  rw [sq_mul_go_unfound, of_bits_be_nat_bits_be]

/-! ## A concrete small MNT6 tower

The Fp3 and Fp6 implementations (fp3.rs, fp6_as_2_over_3.rs) are not among
the provided sources; the definitions below are modelled from the spec:
Fp3 is Fp[u] modulo u ^ 3 - beta with componentwise additive structure and
polynomial multiplication, Fp6 (as 2 over 3) is Fp3[v] modulo v ^ 2 - xi
with xi = beta embedded in c0 (as in the engine construction), the
Frobenius is the p ^ k power map, cyclotomic_exp is plain
square-and-multiply over the MSB-first exponent bits, and inverse is the
unit-group power (a a ^ -1 = 1 for nonzero a in a field).  Elements carry
Montgomery-form component representations throughout. -/

/-- Iterated multiplication: the mathematical power of a under mul. -/
def mpow {α : Type} (mul : α → α → α) (one : α) (a : α) : Nat → α
  | 0 => one
  | n + 1 => mul (mpow mul one a n) a

/-- Componentwise Fp3 addition. -/
def fp3_add (F : SizedPrimeField) (a b : Nat × Nat × Nat) : Nat × Nat × Nat :=
  (Fp.add_assign F a.1 b.1, Fp.add_assign F a.2.1 b.2.1, Fp.add_assign F a.2.2 b.2.2)

/-- Componentwise Fp3 subtraction. -/
def fp3_sub (F : SizedPrimeField) (a b : Nat × Nat × Nat) : Nat × Nat × Nat :=
  (Fp.sub_assign F a.1 b.1, Fp.sub_assign F a.2.1 b.2.1, Fp.sub_assign F a.2.2 b.2.2)

/-- Componentwise Fp3 doubling. -/
def fp3_double (F : SizedPrimeField) (a : Nat × Nat × Nat) : Nat × Nat × Nat :=
  (Fp.double F a.1, Fp.double F a.2.1, Fp.double F a.2.2)

/-- Componentwise Fp3 negation. -/
def fp3_negate (F : SizedPrimeField) (a : Nat × Nat × Nat) : Nat × Nat × Nat :=
  (Fp.negate F a.1, Fp.negate F a.2.1, Fp.negate F a.2.2)

/-- Fp3 multiplication: polynomial product reduced by u ^ 3 = beta (beta a
Montgomery representation). -/
def fp3_mul (F : SizedPrimeField) (beta : Nat) (a b : Nat × Nat × Nat) : Nat × Nat × Nat :=
  let m := Fp.mul_assign F
  let ad := Fp.add_assign F
  (ad (m a.1 b.1) (m beta (ad (m a.2.1 b.2.2) (m a.2.2 b.2.1))),
   ad (ad (m a.1 b.2.1) (m a.2.1 b.1)) (m beta (m a.2.2 b.2.2)),
   ad (ad (m a.1 b.2.2) (m a.2.2 b.1)) (m a.2.1 b.2.1))

/-- Fp3 squaring (same value as self-multiplication). -/
def fp3_square (F : SizedPrimeField) (beta : Nat) (a : Nat × Nat × Nat) : Nat × Nat × Nat :=
  fp3_mul F beta a a

/-- Fp3 multiplication by a base-field element, componentwise. -/
def fp3_mul_by_fp (F : SizedPrimeField) (a : Nat × Nat × Nat) (e : Nat) : Nat × Nat × Nat :=
  (Fp.mul_assign F a.1 e, Fp.mul_assign F a.2.1 e, Fp.mul_assign F a.2.2 e)

/-- Fp3 zero. -/
def fp3_zero : Nat × Nat × Nat := (0, 0, 0)

/-- Fp3 one. -/
def fp3_one (F : SizedPrimeField) : Nat × Nat × Nat := (Fp.one_repr F, 0, 0)

/-- Fp3 element with only c0 set. -/
def fp3_fp_as_c0 (e : Nat) : Nat × Nat × Nat := (e, 0, 0)

/-- Fp3 inverse via the unit-group power (Fermat), none on zero. -/
def fp3_inverse (F : SizedPrimeField) (beta : Nat) (a : Nat × Nat × Nat) :
    Option (Nat × Nat × Nat) :=
  if a = fp3_zero then none
  else some (sq_mul_exp (fp3_mul F beta) (fp3_square F beta) (fp3_one F) a (F.modulus ^ 3 - 2))

/-- Fp6 multiplication over Fp3, reduced by v ^ 2 = xi with xi the
non-residue embedded in c0. -/
def fp6_mul (F : SizedPrimeField) (beta : Nat)
    (a b : (Nat × Nat × Nat) × (Nat × Nat × Nat)) :
    (Nat × Nat × Nat) × (Nat × Nat × Nat) :=
  let xi := fp3_fp_as_c0 beta
  (fp3_add F (fp3_mul F beta a.1 b.1) (fp3_mul F beta xi (fp3_mul F beta a.2 b.2)),
   fp3_add F (fp3_mul F beta a.1 b.2) (fp3_mul F beta a.2 b.1))

/-- Fp6 one. -/
def fp6_one (F : SizedPrimeField) : (Nat × Nat × Nat) × (Nat × Nat × Nat) :=
  (fp3_one F, fp3_zero)

/-- Fp6 squaring (same value as self-multiplication). -/
def fp6_square (F : SizedPrimeField) (beta : Nat)
    (f : (Nat × Nat × Nat) × (Nat × Nat × Nat)) :
    (Nat × Nat × Nat) × (Nat × Nat × Nat) :=
  fp6_mul F beta f f

/-- Fp6 Frobenius: the p ^ k power map (computed by square-and-multiply;
the multiplication of the tower is associative and commutative, so this
equals the iterated product). -/
def fp6_frobenius (F : SizedPrimeField) (beta : Nat)
    (f : (Nat × Nat × Nat) × (Nat × Nat × Nat)) (k : Nat) :
    (Nat × Nat × Nat) × (Nat × Nat × Nat) :=
  sq_mul_exp (fp6_mul F beta) (fp6_square F beta) (fp6_one F) f (F.modulus ^ k)

/-- Fp6 cyclotomic exponentiation: plain square-and-multiply over the
MSB-first bits of the exponent. -/
def fp6_cyclotomic_exp (F : SizedPrimeField) (beta : Nat)
    (f : (Nat × Nat × Nat) × (Nat × Nat × Nat)) (e : Nat) :
    (Nat × Nat × Nat) × (Nat × Nat × Nat) :=
  sq_mul_exp (fp6_mul F beta) (fp6_square F beta) (fp6_one F) f e

/-- Fp6 inverse via the unit-group power (Fermat), none on zero. -/
def fp6_inverse (F : SizedPrimeField) (beta : Nat)
    (f : (Nat × Nat × Nat) × (Nat × Nat × Nat)) :
    Option ((Nat × Nat × Nat) × (Nat × Nat × Nat)) :=
  if f = (fp3_zero, fp3_zero) then none
  else some (sq_mul_exp (fp6_mul F beta) (fp6_square F beta) (fp6_one F) f (F.modulus ^ 6 - 2))

/-- Montgomery representation of the non-residue 3 of the small tower:
3 * R mod 7 = 3 * 4 mod 7 = 5.  Over F 7, 3 is a non-cube (the cubes are
1 and 6) and 3 is a non-square in F 343, so both tower levels are genuine
field extensions. -/
def beta7 : Nat := 5

/-- Concrete Fp3 operation record of the small tower. -/
def small_fp3_ops : Fp3Ops (Nat × Nat × Nat) :=
  { zero := fp3_zero
    one := fp3_one F7
    is_zero := fun a => a == fp3_zero
    add := fp3_add F7
    sub := fp3_sub F7
    double := fp3_double F7
    negate := fp3_negate F7
    square := fp3_square F7 beta7
    mul := fp3_mul F7 beta7
    mul_by_fp := fp3_mul_by_fp F7
    fp_as_c0 := fp3_fp_as_c0
    inverse := fp3_inverse F7 beta7 }

/-- Concrete Fp6 operation record of the small tower. -/
def small_fp6_ops : Fp6Ops (Nat × Nat × Nat) :=
  { one := fp6_one F7
    square := fp6_square F7 beta7
    mul := fp6_mul F7 beta7
    inverse := fp6_inverse F7 beta7
    frobenius_map := fun f k => fp6_frobenius F7 beta7 f k
    cyclotomic_exp := fun f e => fp6_cyclotomic_exp F7 beta7 f e }

/-! ## C2: final_exponentiation_part_two -/

/-- Concrete engine parameters over the small tower used to test
final_exponentiation_part_two: w0 = 1 (negative, so the w0 factor base is
elt_inv), w1 = 2. -/
def mnt6_c2_inst : MNT6Inst (Nat × Nat × Nat) :=
  { x := 3, x_is_negative := false, exp_w0 := 1, exp_w1 := 2,
    exp_w0_is_negative := true, twist := (0, 4, 0), curve_twist_a := fp3_zero }

/-- A (not necessarily on-curve) G1 point fed to the ate loop; the engine
does not check curve membership in release builds. -/
def p_c2 : CurvePointFp := ⟨1, 2, 1⟩

/-- A G2 point over the small tower fed to the ate loop. -/
def q_c2 : CurvePointFp3 (Nat × Nat × Nat) := ⟨(1, 2, 3), (4, 5, 6), (4, 0, 0)⟩

/-- A genuine Miller-loop output of the engine instance: the ate pairing
loop value on (p_c2, q_c2), as certified in the counterexample statement. -/
def f_c2 : (Nat × Nat × Nat) × (Nat × Nat × Nat) :=
  match ate_pairing_loop small_fp3_ops small_fp6_ops mnt6_c2_inst p_c2 q_c2 with
  | some (Except.ok f) => f
  | _ => fp6_one F7

/-- The inverse of f_c2 (checked in the counterexample statement). -/
def f_c2_inv : (Nat × Nat × Nat) × (Nat × Nat × Nat) :=
  (fp6_inverse F7 beta7 f_c2).getD (fp6_one F7)

/-- a = part_one (f, f inverse) of the counterexample. -/
def a_c2 : (Nat × Nat × Nat) × (Nat × Nat × Nat) :=
  final_exponentiation_part_one small_fp6_ops f_c2 f_c2_inv

/-- b = part_one (f inverse, f) of the counterexample. -/
def b_c2 : (Nat × Nat × Nat) × (Nat × Nat × Nat) :=
  final_exponentiation_part_one small_fp6_ops f_c2_inv f_c2

set_option maxRecDepth 10000 in
/-- C2 counterexample: over the small MNT6 tower (p = 7) with w0 = 1
(negative) and w1 = 2, part two does not compute a ^ p * a ^ w1 * b ^ w0:
the code raises the Frobenius image a ^ p to the power w1 instead of
multiplying by a ^ w1. -/
theorem mnt6_part_two_counterexample :
    ate_pairing_loop small_fp3_ops small_fp6_ops mnt6_c2_inst p_c2 q_c2
      = some (Except.ok f_c2)
    ∧ fp6_mul F7 beta7 f_c2 f_c2_inv = fp6_one F7
    ∧ final_exponentiation_part_two small_fp6_ops mnt6_c2_inst a_c2 b_c2
      ≠ fp6_mul F7 beta7
          (fp6_mul F7 beta7
            (mpow (fp6_mul F7 beta7) (fp6_one F7) a_c2 7)
            (mpow (fp6_mul F7 beta7) (fp6_one F7) a_c2 2))
          (mpow (fp6_mul F7 beta7) (fp6_one F7) b_c2 1) := by
  refine ⟨?_, ?_, ?_⟩
  · rfl
  · decide
  · decide

/-- C2 as amended: whenever the Fp6 multiplication and squaring are a
commutative monoid structure, cyclotomic_exp is the square-and-multiply
loop over the exponent bits and the Frobenius of elt is elt ^ p, part two
computes (elt ^ p) ^ w1 * sel ^ w0 = elt ^ (p * w1) * sel ^ w0, where sel
is elt_inv when w0 is negative and elt otherwise. -/
theorem mnt6_final_exp_part_two_amended {γ : Type} [CommMonoid (γ × γ)]
    (O6 : Fp6Ops γ) (inst : MNT6Inst γ) (p : Nat) (elt elt_inv : γ × γ)
    (hmul : O6.mul = fun x y => x * y)
    (hcyc : O6.cyclotomic_exp
      = fun f e => sq_mul_exp (fun x y : γ × γ => x * y) (fun x => x * x) 1 f e)
    (hfrob : O6.frobenius_map elt 1 = elt ^ p) :
    final_exponentiation_part_two O6 inst elt elt_inv
      = elt ^ (p * inst.exp_w1)
        * (if inst.exp_w0_is_negative then elt_inv else elt) ^ inst.exp_w0 := by
  unfold final_exponentiation_part_two
  rw [hmul, hcyc, hfrob]
  dsimp only
  rw [sq_mul_exp_pow, ← pow_mul]
  cases h : inst.exp_w0_is_negative
  · simp only [h, Bool.false_eq_true, if_false]
    rw [sq_mul_exp_pow]
  · simp only [h, if_true]
    rw [sq_mul_exp_pow]

/-- Demo Fp6 operation record over pairs of ZMod 5 satisfying the
amended-theorem hypotheses, with p = 3 as the Frobenius power. -/
def amended_demo_ops : Fp6Ops (ZMod 5) :=
  { one := 1
    square := fun x => x * x
    mul := fun x y => x * y
    inverse := fun _ => none
    frobenius_map := fun f k => f ^ (3 ^ k)
    cyclotomic_exp := fun f e =>
      sq_mul_exp (fun x y : ZMod 5 × ZMod 5 => x * y) (fun x => x * x) 1 f e }

/-- Demo engine parameters for the amended-theorem witness. -/
def amended_demo_inst : MNT6Inst (ZMod 5) :=
  { x := 3, x_is_negative := false, exp_w0 := 2, exp_w1 := 3,
    exp_w0_is_negative := false, twist := 0, curve_twist_a := 0 }

/-- Witness for the amended C2 at a concrete input. -/
theorem mnt6_final_exp_part_two_amended_witness :
    final_exponentiation_part_two amended_demo_ops amended_demo_inst
        ((2, 3) : ZMod 5 × ZMod 5) ((1, 4) : ZMod 5 × ZMod 5)
      = ((2, 3) : ZMod 5 × ZMod 5) ^ (3 * amended_demo_inst.exp_w1)
        * (if amended_demo_inst.exp_w0_is_negative then ((1, 4) : ZMod 5 × ZMod 5)
            else (2, 3)) ^ amended_demo_inst.exp_w0 :=
  mnt6_final_exp_part_two_amended amended_demo_ops amended_demo_inst 3
    (2, 3) (1, 4) rfl rfl (by decide)

/-! ## C3: identity filtering in pair -/

/-- Minimal Fp3 operation record over Nat for structural tests of the
engine plumbing: the one is 42 and exactly 42 has no inverse, so a
precomputation state whose Z stays at one exercises the failing-inverse
path while the twist element remains invertible. -/
def demo_fp3_ops : Fp3Ops Nat :=
  { zero := 0
    one := 42
    is_zero := fun g => g == 0
    add := fun a b => a + b
    sub := fun a b => a - b
    double := fun a => 2 * a
    negate := fun a => 1000 - a
    square := fun a => a * a
    mul := fun a b => a * b
    mul_by_fp := fun g e => g * e
    fp_as_c0 := fun e => e
    inverse := fun g => if g = 42 then none else some g }

/-- Minimal Fp6 operation record over Nat for structural tests. -/
def demo_fp6_ops : Fp6Ops Nat :=
  { one := (42, 0)
    square := fun f => f
    mul := fun f g => (f.1 * g.1, f.2 + g.2)
    inverse := fun f => some f
    frobenius_map := fun f _ => f
    cyclotomic_exp := fun f _ => f }

/-- Demo engine parameters: x = 1 (no loop bits) and x negative, so the
negative-x extra addition step runs directly on the initial state. -/
def demo_inst : MNT6Inst Nat :=
  { x := 1, x_is_negative := true, exp_w0 := 1, exp_w1 := 1,
    exp_w0_is_negative := false, twist := 7, curve_twist_a := 3 }

/-- C3 counterexample: for the empty pair of slices (equal lengths, and
vacuously every pair has an identity side) with the gas-metering flag off,
pair returns None rather than the Fp6 one. -/
theorem mnt6_pair_identity_counterexample :
    mnt6_pair demo_fp3_ops demo_fp6_ops demo_inst false [] [] = some none
    ∧ (some none : Option (Option (Nat × Nat)))
        ≠ some (some demo_fp6_ops.one) := by
  constructor
  · rfl
  · decide

/-- C3 as amended: for equal-length slices in which every pair has the
identity on at least one side, pair returns the Fp6 one provided the
slices are non-empty or the gas-metering flag is set (for empty slices
outside gas metering it returns None). -/
theorem mnt6_pair_all_identity_one {γ : Type} (O : Fp3Ops γ) (O6 : Fp6Ops γ)
    (inst : MNT6Inst γ) (gas : Bool)
    (points : List CurvePointFp) (twists : List (CurvePointFp3 γ))
    (hlen : points.length = twists.length)
    (hne : gas = true ∨ points ≠ [])
    (hall : ∀ pq ∈ points.zip twists, pq.1.z = 0 ∨ O.is_zero pq.2.z = true) :
    mnt6_pair O O6 inst gas points twists = some (some O6.one) := by
  unfold mnt6_pair
  rw [if_neg (by omega)]
  have h2 : ¬(¬gas = true ∧ (points.length = 0 ∨ twists.length = 0)) := by
    rcases hne with hg | hp
    · intro hc
      exact hc.1 hg
    · intro hc
      have : points.length ≠ 0 := fun h0 => hp (List.length_eq_zero.mp h0)
      omega
  rw [if_neg h2]
  have hf : (points.zip twists).filter
      (fun pq => !(pq.1.z == 0) && !(O.is_zero pq.2.z)) = [] := by
    rw [List.filter_eq_nil_iff]
    intro pq hmem
    rcases hall pq hmem with h | h
    · simp [h]
    · simp [h]
  simp [hf]

/-- Witness for the amended C3: one pair whose G1 side is the identity. -/
theorem mnt6_pair_all_identity_one_witness :
    mnt6_pair demo_fp3_ops demo_fp6_ops demo_inst false
      [⟨1, 2, 0⟩] [⟨5, 6, 7⟩] = some (some demo_fp6_ops.one) :=
  mnt6_pair_all_identity_one demo_fp3_ops demo_fp6_ops demo_inst false
    [⟨1, 2, 0⟩] [⟨5, 6, 7⟩] (by decide) (Or.inr (List.cons_ne_nil _ _)) (by decide)

/-! ## C5: the negative-x extra addition step and its inverse failure -/

/-- C5.  With x negative and a surviving (non-identity) pair: when the
inverse of the accumulated Z exists, precompute_g2 appends exactly one
extra addition step built from the affine data (rz_inv ^ 2 * R.X,
-(rz_inv ^ 3 * R.Y)); when it does not exist, precompute_g2 errors and
pair on that pair returns None. -/
theorem mnt6_negative_x_extra_step {γ : Type} (O : Fp3Ops γ) (O6 : Fp6Ops γ)
    (inst : MNT6Inst γ) (p : CurvePointFp) (q : CurvePointFp3 γ) (twist_inv : γ)
    (hneg : inst.x_is_negative = true)
    (hti : O.inverse inst.twist = some twist_inv)
    (hpz : (p.z == 0) = false)
    (hqz : O.is_zero q.z = false) :
    (∀ rz_inv, O.inverse (precompute_g2_main O inst q).2.2.z = some rz_inv →
      precompute_g2 O inst q twist_inv = some
        ⟨q.x, q.y, O.mul q.x twist_inv, O.mul q.y twist_inv,
          (precompute_g2_main O inst q).1,
          (precompute_g2_main O inst q).2.1
            ++ [(addition_step O
                  (O.mul (O.square rz_inv) (precompute_g2_main O inst q).2.2.x)
                  (O.negate (O.mul (O.mul rz_inv (O.square rz_inv))
                    (precompute_g2_main O inst q).2.2.y))
                  (precompute_g2_main O inst q).2.2).1]⟩)
    ∧ (O.inverse (precompute_g2_main O inst q).2.2.z = none →
        precompute_g2 O inst q twist_inv = none
        ∧ mnt6_pair O O6 inst false [p] [q] = some none) := by
  constructor
  · intro rz_inv h
    simp [precompute_g2, hneg, h]
  · intro h
    have hpre : precompute_g2 O inst q twist_inv = none := by
      simp [precompute_g2, hneg, h]
    refine ⟨hpre, ?_⟩
    simp [mnt6_pair, miller_loop, ate_pairing_loop, hti, hpz, hqz, hpre]

/-- Witness for C5: over the demo record, x = 1 and negative leaves the
accumulated Z at one (42), which has no inverse. -/
theorem mnt6_negative_x_extra_step_witness :
    precompute_g2 demo_fp3_ops demo_inst ⟨5, 6, 7⟩ 7 = none
    ∧ mnt6_pair demo_fp3_ops demo_fp6_ops demo_inst false
        [⟨1, 1, 1⟩] [⟨5, 6, 7⟩] = some none :=
  (mnt6_negative_x_extra_step demo_fp3_ops demo_fp6_ops demo_inst
    ⟨1, 1, 1⟩ ⟨5, 6, 7⟩ 7 rfl rfl rfl rfl).2 rfl

/-! ## C10: coefficient buffers match the loop's consumption -/

theorem precompute_g2_fold_lengths {γ : Type} (O : Fp3Ops γ) (twist_a qx qy : γ) :
    ∀ (bits : List Bool) (r : ExtendedCoordinates γ),
      (precompute_g2_fold O twist_a qx qy bits r).1.length = bits.length
      ∧ (precompute_g2_fold O twist_a qx qy bits r).2.1.length = bits.count true := by
  intro bits
  induction bits with
  | nil => intro r; simp [precompute_g2_fold]
  | cons b rest ih =>
    intro r
    cases b
    · simp [precompute_g2_fold, ih, List.count_cons]
    · simp [precompute_g2_fold, ih, List.count_cons]

theorem precompute_g2_main_lengths {γ : Type} (O : Fp3Ops γ) (inst : MNT6Inst γ)
    (q : CurvePointFp3 γ) :
    (precompute_g2_main O inst q).1.length = (loop_bits inst.x).length
    ∧ (precompute_g2_main O inst q).2.1.length = (loop_bits inst.x).count true := by
  unfold precompute_g2_main
  exact precompute_g2_fold_lengths O inst.curve_twist_a q.x q.y (loop_bits inst.x) _

theorem precompute_g2_lengths {γ : Type} (O : Fp3Ops γ) (inst : MNT6Inst γ)
    (q : CurvePointFp3 γ) (twist_inv : γ) (pg : PrecomputedG2 γ)
    (h : precompute_g2 O inst q twist_inv = some pg) :
    pg.double_coefficients.length = (loop_bits inst.x).length
    ∧ pg.addition_coefficients.length
      = (loop_bits inst.x).count true + (if inst.x_is_negative then 1 else 0) := by
  have hm := precompute_g2_main_lengths O inst q
  cases hneg : inst.x_is_negative
  · simp only [precompute_g2, hneg, Bool.false_eq_true, if_false] at h
    injection h with h
    subst h
    simpa using ⟨hm.1, hm.2⟩
  · simp only [precompute_g2, hneg, if_true] at h
    cases hz : O.inverse (precompute_g2_main O inst q).2.2.z
    · rw [hz] at h
      exact absurd h (by simp)
    · rw [hz] at h
      simp only at h
      injection h with h
      subst h
      simp only [List.length_append, List.length_cons, List.length_nil, if_true]
      exact ⟨hm.1, by omega⟩

theorem ate_loop_go_spec {γ : Type} (O : Fp3Ops γ) (O6 : Fp6Ops γ)
    (pB : PrecomputedG1 γ) (l1_coeff y_over_twist : γ)
    (dcs : List (AteDoubleCoefficients γ)) (acs : List (AteAdditionCoefficients γ)) :
    ∀ (bits : List Bool) (dbl add : Nat) (f : γ × γ),
      dbl + bits.length ≤ dcs.length →
      add + bits.count true ≤ acs.length →
      ∃ f2, ate_loop_go O O6 pB l1_coeff y_over_twist dcs acs bits dbl add f
        = some (f2, dbl + bits.length, add + bits.count true) := by
  intro bits
  induction bits with
  | nil =>
    intro dbl add f h1 h2
    exact ⟨f, by simp [ate_loop_go]⟩
  | cons b rest ih =>
    intro dbl add f h1 h2
    simp only [List.length_cons] at h1
    simp only [List.count_cons] at h2
    have hdlt : dbl < dcs.length := by omega
    obtain ⟨dc, hdc⟩ : ∃ dc, dcs.get? dbl = some dc := ⟨_, List.get?_eq_get hdlt⟩
    cases b
    · have h2b : add + rest.count true ≤ acs.length := by
        simpa using h2
      obtain ⟨f2, hgo⟩ := ih (dbl + 1) add
        (O6.mul (O6.square f) (g_rr_line O pB dc)) (by omega) h2b
      refine ⟨f2, ?_⟩
      rw [ate_loop_go, hdc]
      simp only [Bool.false_eq_true, if_false]
      rw [hgo]
      have e1 : dbl + 1 + rest.length = dbl + (rest.length + 1) := by omega
      have e2 : (false :: rest).count true = rest.count true := by
        simp [List.count_cons]
      rw [e1, e2]
      simp
    · have h2b : add + 1 + rest.count true ≤ acs.length := by
        simp at h2
        omega
      have halt : add < acs.length := by omega
      obtain ⟨ac, hac⟩ : ∃ ac, acs.get? add = some ac := ⟨_, List.get?_eq_get halt⟩
      obtain ⟨f2, hgo⟩ := ih (dbl + 1) (add + 1)
        (O6.mul (O6.mul (O6.square f) (g_rr_line O pB dc))
          (g_rq_line O pB l1_coeff y_over_twist ac)) (by omega) (by omega)
      refine ⟨f2, ?_⟩
      rw [ate_loop_go, hdc]
      simp only [if_true]
      rw [hac]
      simp only
      rw [hgo]
      have e1 : dbl + 1 + rest.length = dbl + (rest.length + 1) := by omega
      have e2 : (true :: rest).count true = rest.count true + 1 := by
        simp [List.count_cons]
      have e3 : add + 1 + rest.count true = add + (rest.count true + 1) := by omega
      rw [e1, e2, e3]
      simp

theorem ate_pairing_loop_ne_none {γ : Type} (O : Fp3Ops γ) (O6 : Fp6Ops γ)
    (inst : MNT6Inst γ) (point : CurvePointFp) (q : CurvePointFp3 γ) :
    ate_pairing_loop O O6 inst point q ≠ none := by
  unfold ate_pairing_loop
  cases hti : O.inverse inst.twist with
  | none => simp
  | some twist_inv =>
    simp only
    cases hpre : precompute_g2 O inst q twist_inv with
    | none => simp
    | some pg =>
      simp only
      have hlen := precompute_g2_lengths O inst q twist_inv pg hpre
      obtain ⟨f2, hgo⟩ := ate_loop_go_spec O O6 (precompute_g1 O inst.twist point)
        (O.sub (O.fp_as_c0 (precompute_g1 O inst.twist point).x) pg.x_over_twist)
        pg.y_over_twist pg.double_coefficients pg.addition_coefficients
        (loop_bits inst.x) 0 0 O6.one
        (by omega)
        (by rcases hlen with ⟨h1, h2⟩; split at h2 <;> omega)
      rw [hgo]
      simp only
      cases hneg : inst.x_is_negative
      · simp
      · have hcnt : 0 + (loop_bits inst.x).count true
            < pg.addition_coefficients.length := by
          rcases hlen with ⟨h1, h2⟩
          rw [hneg] at h2
          simp at h2
          omega
        obtain ⟨ac, hac⟩ : ∃ ac, pg.addition_coefficients.get?
            (0 + (loop_bits inst.x).count true) = some ac :=
          ⟨_, List.get?_eq_get hcnt⟩
        rw [hac]
        cases hfin : O6.inverse (O6.mul f2 (g_rq_line O
            (precompute_g1 O inst.twist point)
            (O.sub (O.fp_as_c0 (precompute_g1 O inst.twist point).x) pg.x_over_twist)
            pg.y_over_twist ac)) <;> simp [hfin]

/-- C10.  When precompute_g2 succeeds, the coefficient buffers match the
Miller loop consumption exactly: one doubling record per loop bit, one
addition record per set loop bit plus one extra for negative x; and
consequently every indexed buffer access in ate_pairing_loop is within
bounds (the loop never reaches the out-of-bounds outcome, for any G1
point). -/
theorem mnt6_coefficient_buffers_match {γ : Type} (O : Fp3Ops γ) (O6 : Fp6Ops γ)
    (inst : MNT6Inst γ) (q : CurvePointFp3 γ) (twist_inv : γ) (pg : PrecomputedG2 γ)
    (hpre : precompute_g2 O inst q twist_inv = some pg) :
    pg.double_coefficients.length = (loop_bits inst.x).length
    ∧ pg.addition_coefficients.length
      = (loop_bits inst.x).count true + (if inst.x_is_negative then 1 else 0)
    ∧ ∀ point, ate_pairing_loop O O6 inst point q ≠ none :=
  ⟨(precompute_g2_lengths O inst q twist_inv pg hpre).1,
    (precompute_g2_lengths O inst q twist_inv pg hpre).2,
    fun point => ate_pairing_loop_ne_none O O6 inst point q⟩

/-- Demo engine parameters with positive x = 5 (loop bits 0 and 1). -/
def demo_inst_pos : MNT6Inst Nat :=
  { x := 5, x_is_negative := false, exp_w0 := 1, exp_w1 := 1,
    exp_w0_is_negative := false, twist := 7, curve_twist_a := 3 }

/-- The precomputation result of the C10 witness instance. -/
def demo_pg : PrecomputedG2 Nat :=
  (precompute_g2 demo_fp3_ops demo_inst_pos ⟨5, 6, 7⟩ 7).getD ⟨0, 0, 0, 0, [], []⟩

/-- Witness for C10 at a concrete instance. -/
theorem mnt6_coefficient_buffers_match_witness :
    precompute_g2 demo_fp3_ops demo_inst_pos ⟨5, 6, 7⟩ 7 = some demo_pg
    ∧ demo_pg.double_coefficients.length = (loop_bits demo_inst_pos.x).length :=
  ⟨rfl,
    (mnt6_coefficient_buffers_match demo_fp3_ops demo_fp6_ops demo_inst_pos
      ⟨5, 6, 7⟩ 7 demo_pg rfl).1⟩

/-! ## C4: the result byte of pair_mnt6 (public_interface/pairing_ops.rs)

The byte-level decoder is out of scope; the embedding starts from the
decoded pair list of an accepted request.  The decode loop keeps exactly
the pairs in which neither point is the identity; with no survivors the
result is the byte 1 without running the engine; otherwise the engine runs
and an engine None becomes the API error, while a result is compared with
the Fp6 one for the single output byte. -/

def pair_mnt6_result {γ : Type} [DecidableEq γ] (O : Fp3Ops γ) (O6 : Fp6Ops γ)
    (inst : MNT6Inst γ) (in_gas_metering : Bool)
    (decoded : List (CurvePointFp × CurvePointFp3 γ)) :
    Option (Except Unit (List Nat)) :=
  let kept := decoded.filter (fun pq => !(pq.1.z == 0) && !(O.is_zero pq.2.z))
  let g1_points := kept.map (fun pq => pq.1)
  let g2_points := kept.map (fun pq => pq.2)
  if g1_points.length = 0 then some (Except.ok [1])
  else
    match mnt6_pair O O6 inst in_gas_metering g1_points g2_points with
    | none => none
    | some none => some (Except.error ())
    | some (some r) =>
      if r = O6.one then some (Except.ok [1]) else some (Except.ok [0])

/-- C4.  For a decoded MNT6 pairing request: every successfully returned
byte string is exactly [1] or [0]; when every encoded pair contains an
identity point the byte is 1 (without consulting the engine); and when the
engine produces a pairing value the byte is 1 exactly for the Fp6 one and
0 otherwise. -/
theorem pair_mnt6_result_byte {γ : Type} [DecidableEq γ] (O : Fp3Ops γ)
    (O6 : Fp6Ops γ) (inst : MNT6Inst γ) (gas : Bool)
    (decoded : List (CurvePointFp × CurvePointFp3 γ)) :
    (∀ bs, pair_mnt6_result O O6 inst gas decoded = some (Except.ok bs) →
      bs = [1] ∨ bs = [0])
    ∧ ((∀ pq ∈ decoded, pq.1.z = 0 ∨ O.is_zero pq.2.z = true) →
      pair_mnt6_result O O6 inst gas decoded = some (Except.ok [1]))
    ∧ (∀ r,
      (decoded.filter (fun pq => !(pq.1.z == 0) && !(O.is_zero pq.2.z))) ≠ [] →
      mnt6_pair O O6 inst gas
        ((decoded.filter (fun pq => !(pq.1.z == 0) && !(O.is_zero pq.2.z))).map
          (fun pq => pq.1))
        ((decoded.filter (fun pq => !(pq.1.z == 0) && !(O.is_zero pq.2.z))).map
          (fun pq => pq.2)) = some (some r) →
      pair_mnt6_result O O6 inst gas decoded
        = some (Except.ok (if r = O6.one then [1] else [0]))) := by
  refine ⟨?_, ?_, ?_⟩
  · intro bs hbs
    simp only [pair_mnt6_result] at hbs
    by_cases hk : ((decoded.filter
        (fun pq => !(pq.1.z == 0) && !(O.is_zero pq.2.z))).map
          (fun pq => pq.1)).length = 0
    · rw [if_pos hk] at hbs
      injection hbs with hbs
      injection hbs with hbs
      exact Or.inl hbs.symm
    · rw [if_neg hk] at hbs
      cases hp : mnt6_pair O O6 inst gas
          ((decoded.filter (fun pq => !(pq.1.z == 0) && !(O.is_zero pq.2.z))).map
            (fun pq => pq.1))
          ((decoded.filter (fun pq => !(pq.1.z == 0) && !(O.is_zero pq.2.z))).map
            (fun pq => pq.2)) with
      | none =>
        rw [hp] at hbs
        exact absurd hbs (by simp)
      | some o =>
        rw [hp] at hbs
        cases o with
        | none => exact absurd hbs (by simp)
        | some r =>
          simp only at hbs
          by_cases hone : r = O6.one
          · rw [if_pos hone] at hbs
            injection hbs with hbs
            injection hbs with hbs
            exact Or.inl hbs.symm
          · rw [if_neg hone] at hbs
            injection hbs with hbs
            injection hbs with hbs
            exact Or.inr hbs.symm
  · intro hall
    simp only [pair_mnt6_result]
    have hf : decoded.filter (fun pq => !(pq.1.z == 0) && !(O.is_zero pq.2.z)) = [] := by
      rw [List.filter_eq_nil_iff]
      intro pq hmem
      rcases hall pq hmem with h | h
      · simp [h]
      · simp [h]
    simp [hf]
  · intro r hk hp
    simp only [pair_mnt6_result]
    have hk2 : ¬((decoded.filter
        (fun pq => !(pq.1.z == 0) && !(O.is_zero pq.2.z))).map (fun pq => pq.1)).length = 0 := by
      simp only [List.length_map]
      intro h0
      exact hk (List.length_eq_zero.mp h0)
    rw [if_neg hk2, hp]
    by_cases hone : r = O6.one <;> simp [hone]

/-- Witness for C4: a decoded list whose single pair has the identity on
both sides yields the byte 1. -/
theorem pair_mnt6_result_byte_witness :
    pair_mnt6_result demo_fp3_ops demo_fp6_ops demo_inst false
      [(⟨1, 2, 0⟩, ⟨3, 4, 0⟩)] = some (Except.ok [1]) :=
  (pair_mnt6_result_byte demo_fp3_ops demo_fp6_ops demo_inst false
    [(⟨1, 2, 0⟩, ⟨3, 4, 0⟩)]).2.1 (by decide)
